import Mathlib

/-!
# The native FFI surface of `examples/ffi_example/native.c`

A shallow embedding of the seven exported C functions, and the properties
of the surface that hold of it.

Conventions of the embedding.

* `int` is a 32-bit two's-complement integer: a signed operation is computed
  on `Int` and reduced into `[-2^31, 2^31)` by `wrap_int`.
* `size_t` is a 64-bit unsigned integer: an operation is computed on `Nat`
  and reduced modulo `2^64` (`size_add`, `size_sub`).
* A `char` buffer is a `List Nat`, the terminator is `0`; an `int` array is a
  `List Int`.  A pointer that may be `NULL` is an `Option`.
* The arithmetic of `double` is a parameter `DoubleArith` of the functions
  `monte_carlo_loop_fp` and `compute_pi_monte_carlo_fp`; `binary64` is the one
  of IEEE 754 with rounding to nearest, and `exact_arith` the one of exact
  rationals, on which `monte_carlo_loop` and `compute_pi_monte_carlo` run.
* The allocator is the list of the live blocks, each an address with its
  content; `free` of an address that is not live is the fault `invalidFree`.
* Memory accesses are checked: `load` and `store` outside the buffer are the
  fault `outOfBounds`.  Loops are run on a fuel counter, and running out of it
  is the fault `outOfFuel`, so that a result `.ok _` always is a result of the
  C function returning.
-/

namespace Native

/-! ## Machine model -/

/-- What can go wrong while a function of the surface runs. -/
inductive Fault where
  | outOfBounds
  | outOfFuel
  | divByZero
  | invalidFree
  deriving DecidableEq, Repr

/-- The largest value of `size_t`. -/
def SIZE_MAX : Nat := 2 ^ 64 - 1

/-- Addition of `size_t` values. -/
def size_add (a b : Nat) : Nat := (a + b) % 2 ^ 64

/-- Subtraction of `size_t` values: it wraps around below zero. -/
def size_sub (a b : Nat) : Nat := (a + (2 ^ 64 - b % 2 ^ 64)) % 2 ^ 64

/-- The largest value of `int`. -/
def INT_MAX : Int := 2 ^ 31 - 1

/-- The smallest value of `int`. -/
def INT_MIN : Int := -(2 ^ 31)

/-- Reduction of a mathematical integer to the `int` that has its low 32 bits. -/
def wrap_int (z : Int) : Int := (z + 2 ^ 31) % 2 ^ 32 - 2 ^ 31

/-- A read `buf[i]`. -/
def load {α : Type} (buf : List α) (i : Nat) : Except Fault α :=
  match buf[i]? with
  | some v => .ok v
  | none => .error .outOfBounds

/-- A write `buf[i] = v`. -/
def store {α : Type} (buf : List α) (i : Nat) (v : α) : Except Fault (List α) :=
  if i < buf.length then .ok (buf.set i v) else .error .outOfBounds

/-- The C library's `strlen`: the number of characters before the first
terminator.  A buffer without a terminator is read past its end. -/
def strlen : List Nat → Except Fault Nat
  | [] => .error .outOfBounds
  | c :: cs => if c = 0 then .ok 0 else do
      let n ← strlen cs
      pure (n + 1)

/-- The C library's `malloc`, when it succeeds: a fresh buffer of `n` slots
whose content is not initialised, here whatever `junk` happens to hold. -/
def malloc (junk : Nat → Nat) (n : Nat) : List Nat := (List.range n).map junk

/-! ## `add_numbers` -/

/-- The function `add_numbers`: `return a + b;` on `int`. -/
def add_numbers (a b : Int) : Int := wrap_int (a + b)

/-! ## `reverse_string` -/

/-- The loop of `reverse_string`:
`for (size_t i = 0; i < len; i++) result[i] = input[len - 1 - i];` -/
def reverse_loop (input : List Nat) (len : Nat) :
    Nat → Nat → List Nat → Except Fault (List Nat)
  | 0, i, result => if i < len then .error .outOfFuel else .ok result
  | fuel + 1, i, result =>
    if i < len then do
      let c ← load input (size_sub (size_sub len 1) i)
      let result ← store result i c
      reverse_loop input len fuel (size_add i 1) result
    else .ok result

/-- The function `reverse_string`.  The input is `none` for `NULL`, and the
result is `none` for `NULL`. -/
def reverse_string (junk : Nat → Nat) :
    Option (List Nat) → Except Fault (Option (List Nat))
  | none => .ok none
  | some input => do
    let len ← strlen input
    let result := malloc junk (size_add len 1)
    let result ← reverse_loop input len len 0 result
    let result ← store result len 0
    pure (some result)

/-! ## `process_array` -/

/-- The loop of `process_array`:
`for (size_t i = 0; i < len; i++) arr[i] = arr[i] * 2;` -/
def process_array_loop (len : Nat) : Nat → Nat → List Int → Except Fault (List Int)
  | 0, i, arr => if i < len then .error .outOfFuel else .ok arr
  | fuel + 1, i, arr =>
    if i < len then do
      let v ← load arr i
      let arr ← store arr i (wrap_int (v * 2))
      process_array_loop len fuel (size_add i 1) arr
    else .ok arr

/-- The function `process_array`: the result is the array after the call. -/
def process_array (arr : List Int) (len : Nat) : Except Fault (List Int) :=
  process_array_loop len len 0 arr

/-! ## `create_point` -/

/-- The record `Point`; `δ` stands for `double`. -/
structure Point (δ : Type) where
  x : Int
  y : Int
  distance : δ

/-- The argument of `sqrt` in `create_point`: the `int` expression
`x * x + y * y`. -/
def create_point_radicand (x y : Int) : Int :=
  wrap_int (wrap_int (x * x) + wrap_int (y * y))

/-- The function `create_point`.  The parameter `sqrt` is the C library's
square root, applied to the `int` radicand converted to `double`. -/
def create_point {δ : Type} (sqrt : Int → δ) (x y : Int) : Point δ :=
  { x := x, y := y, distance := sqrt (create_point_radicand x y) }

/-! ## `process_with_callback` -/

/-- The loop of `process_with_callback`:
`for (size_t i = 0; i < len; i++) callback(arr[i]);`
The callback is a transformer of the state `σ` of the caller; the state of the
loop is the array together with that state. -/
def process_with_callback_loop {σ : Type} (len : Nat) (callback : Int → σ → σ) :
    Nat → Nat → List Int × σ → Except Fault (List Int × σ)
  | 0, i, mem => if i < len then .error .outOfFuel else .ok mem
  | fuel + 1, i, mem =>
    if i < len then do
      let v ← load mem.1 i
      process_with_callback_loop len callback fuel (size_add i 1) (mem.1, callback v mem.2)
    else .ok mem

/-- The function `process_with_callback`: the result is the array and the
state of the caller after the call. -/
def process_with_callback {σ : Type} (arr : List Int) (len : Nat)
    (callback : Int → σ → σ) (st : σ) : Except Fault (List Int × σ) :=
  process_with_callback_loop len callback len 0 (arr, st)

/-! ## `compute_pi_monte_carlo` -/

/-- The coordinate that `compute_pi_monte_carlo` makes of a value `r` of
`rand()`: `(double)r / RAND_MAX`. -/
def coordinate (RAND_MAX r : Nat) : ℚ := (r : ℚ) / (RAND_MAX : ℚ)

/-- The loop of `compute_pi_monte_carlo`.  The generator is the stream `rand`
read at the position `pos`: a call of `rand()` returns `rand pos` and moves
the position by one.  `RAND_MAX` is the constant of the C library.  The
`double` values are exact rationals.  The result is the counter
`inside_circle` and the position of the generator after the loop. -/
def monte_carlo_loop (RAND_MAX : Nat) (rand : Nat → Nat) (iterations : Int) :
    Nat → Int → Int → Nat → Except Fault (Int × Nat)
  | 0, i, inside_circle, pos =>
    if i < iterations then .error .outOfFuel else .ok (inside_circle, pos)
  | fuel + 1, i, inside_circle, pos =>
    if i < iterations then
      let x : ℚ := coordinate RAND_MAX (rand pos)
      let y : ℚ := coordinate RAND_MAX (rand (pos + 1))
      let inside_circle :=
        if x * x + y * y ≤ 1 then wrap_int (inside_circle + 1) else inside_circle
      monte_carlo_loop RAND_MAX rand iterations fuel (wrap_int (i + 1)) inside_circle (pos + 2)
    else .ok (inside_circle, pos)

/-- The function `compute_pi_monte_carlo`: the result is the estimate
`4.0 * inside_circle / iterations` and the position of the generator after
the call.  The quotient by a zero count, which is not a number, is the fault
`divByZero`. -/
def compute_pi_monte_carlo (RAND_MAX : Nat) (rand : Nat → Nat) (pos : Nat)
    (iterations : Int) : Except Fault (ℚ × Nat) := do
  let r ← monte_carlo_loop RAND_MAX rand iterations iterations.toNat 0 0 pos
  if iterations = 0 then .error .divByZero
  else pure (4 * (r.1 : ℚ) / (iterations : ℚ), r.2)

/-- Whether the iteration `j` of a run that reads the generator from the
position `pos` on counts as inside, when the draws are paired in order: its `x`
is made of the draw `2 * j` and its `y` of the draw `2 * j + 1` after `pos`, and
it is inside when `x * x + y * y ≤ 1`. -/
def iteration_inside (RAND_MAX : Nat) (rand : Nat → Nat) (pos j : Nat) : Bool :=
  decide (coordinate RAND_MAX (rand (pos + 2 * j)) * coordinate RAND_MAX (rand (pos + 2 * j))
    + coordinate RAND_MAX (rand (pos + 2 * j + 1)) * coordinate RAND_MAX (rand (pos + 2 * j + 1))
      ≤ 1)

/-- The state of the loop of `compute_pi_monte_carlo` at its guard: the index
`i`, the counter `inside_circle` and the position of the generator. -/
structure LoopState where
  i : Int
  inside_circle : Int
  pos : Nat

/-- One iteration of the loop of `compute_pi_monte_carlo`: the two draws, the
test, and `i++`. -/
def monte_carlo_body (RAND_MAX : Nat) (rand : Nat → Nat) (st : LoopState) : LoopState :=
  let x : ℚ := coordinate RAND_MAX (rand st.pos)
  let y : ℚ := coordinate RAND_MAX (rand (st.pos + 1))
  { i := wrap_int (st.i + 1)
    inside_circle :=
      if x * x + y * y ≤ 1 then wrap_int (st.inside_circle + 1) else st.inside_circle
    pos := st.pos + 2 }

/-- The state of the loop of `compute_pi_monte_carlo` after `k` iterations, in a
run that reads the generator from the position `pos` on. -/
def monte_carlo_state (RAND_MAX : Nat) (rand : Nat → Nat) (pos k : Nat) : LoopState :=
  (monte_carlo_body RAND_MAX rand)^[k] { i := 0, inside_circle := 0, pos := pos }

/-! ## `compute_pi_monte_carlo` in the arithmetic of `double` -/

/-- The arithmetic of `double` that `compute_pi_monte_carlo` uses: the
conversion of an `int`, the product, the sum, the quotient and the test `<=`.
Each operation gives the value that the machine gives, rounding included. -/
structure DoubleArith (δ : Type) where
  ofInt : Int → δ
  mul : δ → δ → δ
  add : δ → δ → δ
  div : δ → δ → δ
  le : δ → δ → Bool

/-- The coordinate `(double)r / RAND_MAX` in the arithmetic `F`. -/
def coordinate_fp {δ : Type} (F : DoubleArith δ) (RAND_MAX r : Nat) : δ :=
  F.div (F.ofInt (r : Int)) (F.ofInt (RAND_MAX : Int))

/-- The test `x * x + y * y <= 1.0` of `compute_pi_monte_carlo` on the
coordinates made of the draws `rx` and `ry`, in the arithmetic `F`. -/
def inside_fp {δ : Type} (F : DoubleArith δ) (RAND_MAX rx ry : Nat) : Bool :=
  let x := coordinate_fp F RAND_MAX rx
  let y := coordinate_fp F RAND_MAX ry
  F.le (F.add (F.mul x x) (F.mul y y)) (F.ofInt 1)

/-- The loop of `compute_pi_monte_carlo` in the arithmetic `F`; the generator
is the stream `rand` read at the position `pos`, as in `monte_carlo_loop`. -/
def monte_carlo_loop_fp {δ : Type} (F : DoubleArith δ) (RAND_MAX : Nat) (rand : Nat → Nat)
    (iterations : Int) : Nat → Int → Int → Nat → Except Fault (Int × Nat)
  | 0, i, inside_circle, pos =>
    if i < iterations then .error .outOfFuel else .ok (inside_circle, pos)
  | fuel + 1, i, inside_circle, pos =>
    if i < iterations then
      let inside_circle :=
        if inside_fp F RAND_MAX (rand pos) (rand (pos + 1)) then wrap_int (inside_circle + 1)
        else inside_circle
      monte_carlo_loop_fp F RAND_MAX rand iterations fuel (wrap_int (i + 1)) inside_circle
        (pos + 2)
    else .ok (inside_circle, pos)

/-- The function `compute_pi_monte_carlo` in the arithmetic `F`: the result is
the `double` `4.0 * inside_circle / iterations` and the position of the
generator after the call. -/
def compute_pi_monte_carlo_fp {δ : Type} (F : DoubleArith δ) (RAND_MAX : Nat)
    (rand : Nat → Nat) (pos : Nat) (iterations : Int) : Except Fault (δ × Nat) := do
  let r ← monte_carlo_loop_fp F RAND_MAX rand iterations iterations.toNat 0 0 pos
  pure (F.div (F.mul (F.ofInt 4) (F.ofInt r.1)) (F.ofInt iterations), r.2)

/-- Whether the iteration `j` of a run in the arithmetic `F` counts as inside,
when the draws are paired in order: the draw `2 * j` after `pos` makes its `x`
and the draw `2 * j + 1` its `y`. -/
def iteration_inside_fp {δ : Type} (F : DoubleArith δ) (RAND_MAX : Nat) (rand : Nat → Nat)
    (pos j : Nat) : Bool :=
  inside_fp F RAND_MAX (rand (pos + 2 * j)) (rand (pos + 2 * j + 1))

/-- The arithmetic of exact rationals, which `monte_carlo_loop` uses. -/
def exact_arith : DoubleArith ℚ where
  ofInt := fun z => (z : ℚ)
  mul := fun a b => a * b
  add := fun a b => a + b
  div := fun a b => a / b
  le := fun a b => decide (a ≤ b)

/-! ## The format binary64 -/

/-- A value of the format binary64 of IEEE 754: a finite value
`(-1)^neg * m * 2^e`, an infinity, or not a number.  A finite value is kept in
the form of the format: `2^52 ≤ m < 2^53` and `-1074 ≤ e ≤ 971`, or `m < 2^52`
and `e = -1074`. -/
inductive F64 where
  | finite (neg : Bool) (m : Nat) (e : Int)
  | inf (neg : Bool)
  | nan
  deriving DecidableEq, Repr

/-- The number of bits of `n`, computed on the fuel `fuel`. -/
def bit_length_aux : Nat → Nat → Nat
  | 0, _ => 0
  | fuel + 1, n => if n = 0 then 0 else bit_length_aux fuel (n / 2) + 1

/-- The number of bits of `n`: `0` for `0`, and `k + 1` for `2^k ≤ n < 2^(k+1)`. -/
def bit_length (n : Nat) : Nat := bit_length_aux n n

/-- The pair `(N, D)` with `N / D = (p / d) / 2^t`. -/
def scale_ratio (p d : Nat) (t : Int) : Nat × Nat :=
  if 0 ≤ t then (p, d * 2 ^ t.toNat) else (p * 2 ^ (-t).toNat, d)

/-- The binary64 value nearest to `(-1)^neg * p / d`, for `d > 0`: rounding to
nearest, ties to the even significand, an infinity when the rounded value is
beyond the largest finite one. -/
def round_ratio (neg : Bool) (p d : Nat) : F64 :=
  if p = 0 then .finite neg 0 (-1074)
  else
    let e0 : Int := (bit_length p : Int) - (bit_length d : Int)
    let s := scale_ratio p d e0
    let e : Int := if s.2 ≤ s.1 then e0 else e0 - 1
    let t : Int := max e (-1022) - 52
    let q := scale_ratio p d t
    let m := q.1 / q.2
    let r := q.1 % q.2
    let m1 := if 2 * r < q.2 then m else if q.2 < 2 * r then m + 1
      else if m % 2 = 0 then m else m + 1
    let m2 := if m1 = 2 ^ 53 then 2 ^ 52 else m1
    let t2 := if m1 = 2 ^ 53 then t + 1 else t
    if 971 < t2 then .inf neg else .finite neg m2 t2

/-- The binary64 value nearest to `(-1)^neg * p * 2^e`. -/
def round_scaled (neg : Bool) (p : Nat) (e : Int) : F64 :=
  if 0 ≤ e then round_ratio neg (p * 2 ^ e.toNat) 1 else round_ratio neg p (2 ^ (-e).toNat)

/-- The integer `(-1)^neg * m`. -/
def signed (neg : Bool) (m : Nat) : Int := if neg then -(m : Int) else (m : Int)

/-- The conversion of an integer to binary64. -/
def F64.ofInt (z : Int) : F64 := round_ratio (decide (z < 0)) z.natAbs 1

/-- The product of binary64. -/
def F64.mul : F64 → F64 → F64
  | .nan, _ => .nan
  | _, .nan => .nan
  | .inf a, .inf b => .inf (xor a b)
  | .inf a, .finite b m _ => if m = 0 then .nan else .inf (xor a b)
  | .finite a m _, .inf b => if m = 0 then .nan else .inf (xor a b)
  | .finite a m1 e1, .finite b m2 e2 => round_scaled (xor a b) (m1 * m2) (e1 + e2)

/-- The quotient of binary64. -/
def F64.div : F64 → F64 → F64
  | .nan, _ => .nan
  | _, .nan => .nan
  | .inf _, .inf _ => .nan
  | .inf a, .finite b _ _ => .inf (xor a b)
  | .finite a _ _, .inf b => .finite (xor a b) 0 (-1074)
  | .finite a m1 e1, .finite b m2 e2 =>
    if m2 = 0 then (if m1 = 0 then .nan else .inf (xor a b))
    else
      let e := e1 - e2
      if 0 ≤ e then round_ratio (xor a b) (m1 * 2 ^ e.toNat) m2
      else round_ratio (xor a b) m1 (m2 * 2 ^ (-e).toNat)

/-- The sum of binary64. -/
def F64.add : F64 → F64 → F64
  | .nan, _ => .nan
  | _, .nan => .nan
  | .inf a, .inf b => if a = b then .inf a else .nan
  | .inf a, .finite _ _ _ => .inf a
  | .finite _ _ _, .inf b => .inf b
  | .finite a m1 e1, .finite b m2 e2 =>
    let e := min e1 e2
    let v : Int := signed a (m1 * 2 ^ (e1 - e).toNat) + signed b (m2 * 2 ^ (e2 - e).toNat)
    if v = 0 then .finite (a && b) 0 (-1074)
    else round_scaled (decide (v < 0)) v.natAbs e

/-- The test `<=` of binary64. -/
def F64.le : F64 → F64 → Bool
  | .nan, _ => false
  | _, .nan => false
  | .inf a, .inf b => a || !b
  | .inf a, .finite _ _ _ => a
  | .finite _ _ _, .inf b => !b
  | .finite a m1 e1, .finite b m2 e2 =>
    let e := min e1 e2
    decide (signed a (m1 * 2 ^ (e1 - e).toNat) ≤ signed b (m2 * 2 ^ (e2 - e).toNat))

/-- The arithmetic of `double` on a machine whose `double` is binary64 and
that rounds each operation to nearest. -/
def binary64 : DoubleArith F64 where
  ofInt := F64.ofInt
  mul := F64.mul
  add := F64.add
  div := F64.div
  le := F64.le

/-- A generator whose first draw is `a` and whose other draws are `b`. -/
def two_draws (a b : Nat) : Nat → Nat := fun k => if k = 0 then a else b

/-! ## `free_string` -/

/-- The allocator of the C library: the blocks that are live, each with the
address that `malloc` returned for it and its content.  A pointer that may be
`NULL` is an `Option` of an address. -/
abbrev Heap := List (Nat × List Nat)

/-- The address that `malloc` returns: one that no live block has. -/
def fresh_address (heap : Heap) : Nat := (heap.map Prod.fst).foldr max 0 + 1

/-- The C library's `free` on a pointer that is not `NULL`: the block of that
address is live no more.  To release an address that is not live is the fault
`invalidFree`. -/
def free (heap : Heap) (p : Nat) : Except Fault Heap :=
  if heap.any (fun b => b.1 == p) then .ok (heap.filter (fun b => b.1 != p))
  else .error .invalidFree

/-- The function `free_string`: `if (str != NULL) free(str);`.  The result is
the allocator after the call. -/
def free_string (heap : Heap) : Option Nat → Except Fault Heap
  | none => .ok heap
  | some str => free heap str

/-- The function `reverse_string` with the allocator made explicit: the buffer
that `reverse_string` returns is a new live block, and the result is its
address and the allocator after the call. -/
def reverse_string_alloc (heap : Heap) (junk : Nat → Nat) (input : Option (List Nat)) :
    Except Fault (Option Nat × Heap) := do
  let r ← reverse_string junk input
  match r with
  | none => pure (none, heap)
  | some buf => pure (some (fresh_address heap), (fresh_address heap, buf) :: heap)

end Native

namespace Native

/-! ## Lemmas on the machine model -/

theorem ok_bind {α β : Type} (x : α) (f : α → Except Fault β) :
    (Except.ok x >>= f) = f x := rfl

theorem error_bind {α β : Type} (e : Fault) (f : α → Except Fault β) :
    ((Except.error e : Except Fault α) >>= f) = Except.error e := rfl

theorem size_add_of_lt {a b : Nat} (h : a + b < 2 ^ 64) : size_add a b = a + b := by
  unfold size_add
  exact Nat.mod_eq_of_lt h

theorem size_sub_of_le {a b : Nat} (hba : b ≤ a) (ha : a < 2 ^ 64) :
    size_sub a b = a - b := by
  unfold size_sub
  have hb : b % 2 ^ 64 = b := Nat.mod_eq_of_lt (by omega)
  rw [hb]
  have e : a + (2 ^ 64 - b) = (a - b) + 2 ^ 64 := by omega
  rw [e, Nat.add_mod_right]
  exact Nat.mod_eq_of_lt (by omega)

theorem load_of_lt {α : Type} (buf : List α) (i : Nat) (h : i < buf.length) :
    load buf i = .ok (buf.get ⟨i, h⟩) := by
  unfold load
  rw [List.getElem?_eq_getElem h]
  rfl

theorem store_of_lt {α : Type} (buf : List α) (i : Nat) (v : α) (h : i < buf.length) :
    store buf i v = .ok (buf.set i v) := by
  unfold store
  rw [if_pos h]

theorem strlen_terminated (s rest : List Nat) (hs : ∀ c ∈ s, c ≠ 0) :
    strlen (s ++ 0 :: rest) = .ok s.length := by
  induction s with
  | nil => simp [strlen]
  | cons c cs ih =>
    have hc : c ≠ 0 := hs c (List.mem_cons_self c cs)
    have hcs : ∀ d ∈ cs, d ≠ 0 := fun d hd => hs d (List.mem_cons_of_mem c hd)
    rw [List.cons_append, strlen, if_neg hc, ih hcs]
    rfl

theorem length_malloc (junk : Nat → Nat) (n : Nat) : (malloc junk n).length = n := by
  simp [malloc]

/-! ## Lemmas on `reverse_string` -/

/-- The loop of `reverse_string` started at `i` on a result buffer whose first
`i` slots are `pre`: it returns, having filled the slots from `i` to the length
of the string with the end of the reversed string, and leaves the slots after
them as they were. -/
theorem reverse_loop_spec (s rest : List Nat) (hlen : s.length < 2 ^ 64 - 1) :
    ∀ (fuel i : Nat) (pre post : List Nat), pre.length = i → i ≤ s.length →
      s.length - i ≤ fuel → s.length - i < post.length →
      reverse_loop (s ++ 0 :: rest) s.length fuel i (pre ++ post)
        = .ok (pre ++ s.reverse.drop i ++ post.drop (s.length - i)) := by
  intro fuel
  induction fuel with
  | zero =>
    intro i pre post _ hi hfuel _
    have e : i = s.length := by omega
    subst e
    simp [reverse_loop]
  | succ fuel ih =>
    intro i pre post hpre hi hfuel hpost
    by_cases hlt : i < s.length
    · have hsub : size_sub (size_sub s.length 1) i = s.length - 1 - i := by
        have h1 : size_sub s.length 1 = s.length - 1 := size_sub_of_le (by omega) (by omega)
        rw [h1]
        exact size_sub_of_le (by omega) (by omega)
      have hrd : s.length - 1 - i < (s ++ 0 :: rest).length := by
        simp only [List.length_append, List.length_cons]; omega
      have hwr : i < (pre ++ post).length := by
        simp only [List.length_append]; omega
      have hget : (s ++ 0 :: rest).get ⟨s.length - 1 - i, hrd⟩ = s.reverse.get ⟨i, by simpa using hlt⟩ := by
        simp only [List.get_eq_getElem]
        rw [List.getElem_append_left (by omega), List.getElem_reverse]
      obtain ⟨p, post1, rfl⟩ : ∃ p post1, post = p :: post1 := by
        cases post with
        | nil => simp at hpost
        | cons p post1 => exact ⟨p, post1, rfl⟩
      have hset : (pre ++ p :: post1).set i ((s ++ 0 :: rest).get ⟨s.length - 1 - i, hrd⟩)
          = (pre ++ [s.reverse.get ⟨i, by simpa using hlt⟩]) ++ post1 := by
        rw [hget, List.set_append_right i _ (by omega)]
        have e0 : i - pre.length = 0 := by omega
        rw [e0]
        simp
      have hstep : reverse_loop (s ++ 0 :: rest) s.length (fuel + 1) i (pre ++ p :: post1)
          = reverse_loop (s ++ 0 :: rest) s.length fuel (i + 1)
              ((pre ++ [s.reverse.get ⟨i, by simpa using hlt⟩]) ++ post1) := by
        rw [reverse_loop, if_pos hlt, hsub, load_of_lt _ _ hrd, ok_bind,
          store_of_lt _ _ _ hwr, ok_bind, hset, size_add_of_lt (by omega)]
      rw [hstep, ih (i + 1) _ post1 (by simp [hpre]) (by omega) (by omega)
        (by simp only [List.length_cons] at hpost; omega)]
      have hdrop : s.reverse.drop i
          = s.reverse.get ⟨i, by simpa using hlt⟩ :: s.reverse.drop (i + 1) := by
        rw [List.drop_eq_getElem_cons (by simpa using hlt)]
        rfl
      have e1 : s.length - i = (s.length - (i + 1)) + 1 := by omega
      rw [hdrop, e1, List.drop_succ_cons]
      simp
    · have e : i = s.length := by omega
      subst e
      simp [reverse_loop]

/-- The result of `reverse_string` on a terminated string: a buffer that holds
the reversed characters and a terminator, whatever the fresh buffer held and
whatever follows the terminator of the input. -/
theorem reverse_string_terminated (junk : Nat → Nat) (s rest : List Nat)
    (hs : ∀ c ∈ s, c ≠ 0) (hlen : s.length < SIZE_MAX) :
    reverse_string junk (some (s ++ 0 :: rest)) = .ok (some (s.reverse ++ [0])) := by
  have hlen2 : s.length < 2 ^ 64 - 1 := hlen
  have hloop := reverse_loop_spec s rest hlen2 s.length 0 []
    (malloc junk (s.length + 1)) rfl (Nat.zero_le _) (by omega)
    (by rw [length_malloc]; omega)
  simp only [List.nil_append, List.drop_zero, Nat.sub_zero] at hloop
  have hstore : store (s.reverse ++ (malloc junk (s.length + 1)).drop s.length) s.length 0
      = .ok (s.reverse ++ [0]) := by
    rw [store_of_lt _ _ _ (by simp [length_malloc])]
    rw [List.set_append_right _ _ (by simp)]
    have hl : ((malloc junk (s.length + 1)).drop s.length).length = 1 := by
      simp [length_malloc]
    match hd : (malloc junk (s.length + 1)).drop s.length, hl with
    | [a], _ => simp
  simp only [reverse_string, strlen_terminated s rest hs, ok_bind,
    size_add_of_lt (show s.length + 1 < 2 ^ 64 by omega), hloop, hstore]
  rfl

/-! ## `reverse_string`: the contract -/

/-- Claim C1. For every present input string `s` of non-terminator characters
(followed in its buffer by a terminator and anything else), `reverse_string`
returns a buffer, and `reverse_string` of that buffer returns the buffer that
holds `s` and its terminator: reversing twice gives `s` back. -/
theorem reverse_string_involution (junk1 junk2 : Nat → Nat) (s rest : List Nat)
    (hs : ∀ c ∈ s, c ≠ 0) (hlen : s.length < SIZE_MAX) :
    ∃ r, reverse_string junk1 (some (s ++ 0 :: rest)) = .ok (some r) ∧
      reverse_string junk2 (some r) = .ok (some (s ++ [0])) := by
  refine ⟨s.reverse ++ [0], reverse_string_terminated junk1 s rest hs hlen, ?_⟩
  have h := reverse_string_terminated junk2 s.reverse []
    (fun c hc => hs c (List.mem_reverse.mp hc)) (by simpa using hlen)
  simpa using h

theorem reverse_string_involution_witness :
    ∃ r, reverse_string (fun _ => 7) (some ([104, 105, 33] ++ 0 :: [9, 9])) = .ok (some r) ∧
      reverse_string (fun _ => 5) (some r) = .ok (some ([104, 105, 33] ++ [0])) :=
  reverse_string_involution (fun _ => 7) (fun _ => 5) [104, 105, 33] [9, 9]
    (by decide) (by decide)

/-- Claim C2. For every present input string `s` of length `n`,
`reverse_string` returns a buffer of exactly `n + 1` slots, whose slot `i` holds
`s[n - 1 - i]` for every `i < n` and whose slot `n` holds the terminator: the
buffer is the reversal of `s` followed by the terminator. -/
theorem reverse_string_content (junk : Nat → Nat) (s rest : List Nat)
    (hs : ∀ c ∈ s, c ≠ 0) (hlen : s.length < SIZE_MAX) :
    ∃ r, reverse_string junk (some (s ++ 0 :: rest)) = .ok (some r) ∧
      r.length = s.length + 1 ∧
      (∀ i, i < s.length → r[i]? = s[s.length - 1 - i]?) ∧
      r[s.length]? = some 0 ∧
      r = s.reverse ++ [0] := by
  refine ⟨s.reverse ++ [0], reverse_string_terminated junk s rest hs hlen, by simp, ?_, ?_, rfl⟩
  · intro i hi
    rw [List.getElem?_append_left (by simpa using hi),
      List.getElem?_eq_getElem (by simpa using hi),
      List.getElem?_eq_getElem (by omega), List.getElem_reverse]
  · rw [List.getElem?_append_right (by simp)]
    simp

theorem reverse_string_content_witness :
    ∃ r, reverse_string (fun k => k + 1) (some ([104, 105, 33] ++ 0 :: [])) = .ok (some r) ∧
      r.length = [104, 105, 33].length + 1 ∧
      (∀ i, i < [104, 105, 33].length → r[i]? = [104, 105, 33][[104, 105, 33].length - 1 - i]?) ∧
      r[[104, 105, 33].length]? = some 0 ∧
      r = [104, 105, 33].reverse ++ [0] :=
  reverse_string_content (fun k => k + 1) [104, 105, 33] [] (by decide) (by decide)

/-- Claim C3. On an input that is absent, or present and terminated,
`reverse_string` returns, and its result is absent if and only if the input is
absent; on the empty string the result is a present buffer that holds the
terminator only. -/
theorem reverse_string_absent_iff (junk : Nat → Nat) (input : Option (List Nat))
    (hwf : ∀ buf, input = some buf →
      ∃ s rest, buf = s ++ 0 :: rest ∧ (∀ c ∈ s, c ≠ 0) ∧ s.length < SIZE_MAX) :
    ∃ r, reverse_string junk input = .ok r ∧ (r = none ↔ input = none) ∧
      (∀ rest, input = some (0 :: rest) → r = some [0]) := by
  cases input with
  | none => exact ⟨none, rfl, by simp, by simp⟩
  | some buf =>
    obtain ⟨s, rest, rfl, hs, hlen⟩ := hwf buf rfl
    refine ⟨some (s.reverse ++ [0]), reverse_string_terminated junk s rest hs hlen,
      by simp, ?_⟩
    intro rest1 h
    cases s with
    | nil => rfl
    | cons c cs =>
      have hc : c ≠ 0 := hs c (List.mem_cons_self c cs)
      simp only [List.cons_append, Option.some.injEq, List.cons.injEq] at h
      exact absurd h.1 hc

theorem reverse_string_absent_iff_witness :
    ∃ r, reverse_string (fun _ => 7) (some [0, 42]) = .ok r ∧
      (r = none ↔ some [0, 42] = (none : Option (List Nat))) ∧
      (∀ rest, some [0, 42] = some (0 :: rest) → r = some [0]) :=
  reverse_string_absent_iff (fun _ => 7) (some [0, 42])
    (fun buf h => ⟨[], [42], by simpa using h.symm, by decide, by decide⟩)

/-- Claim C4. For every present input string `s`, `reverse_string` returns a
buffer whose string has the length of `s`: the number of characters before the
first terminator is the same in the result and in the input. -/
theorem reverse_string_length (junk : Nat → Nat) (s rest : List Nat)
    (hs : ∀ c ∈ s, c ≠ 0) (hlen : s.length < SIZE_MAX) :
    ∃ r, reverse_string junk (some (s ++ 0 :: rest)) = .ok (some r) ∧
      strlen r = .ok s.length ∧ strlen r = strlen (s ++ 0 :: rest) := by
  have h : strlen (s.reverse ++ [0]) = .ok s.length := by
    have h1 := strlen_terminated s.reverse [] (fun c hc => hs c (List.mem_reverse.mp hc))
    simpa using h1
  exact ⟨s.reverse ++ [0], reverse_string_terminated junk s rest hs hlen, h,
    by rw [h, strlen_terminated s rest hs]⟩

theorem reverse_string_length_witness :
    ∃ r, reverse_string (fun _ => 0) (some ([1, 2, 3, 4] ++ 0 :: [8])) = .ok (some r) ∧
      strlen r = .ok [1, 2, 3, 4].length ∧ strlen r = strlen ([1, 2, 3, 4] ++ 0 :: [8]) :=
  reverse_string_length (fun _ => 0) [1, 2, 3, 4] [8] (by decide) (by decide)

/-! ## Lemmas on `int` arithmetic -/

theorem wrap_int_of_range {z : Int} (hlo : INT_MIN ≤ z) (hhi : z ≤ INT_MAX) :
    wrap_int z = z := by
  unfold INT_MIN at hlo
  unfold INT_MAX at hhi
  unfold wrap_int
  omega

/-! ## Lemmas on `process_array` -/

/-- The loop of `process_array` started at `i` on an array whose first `i`
elements are `pre`: it returns, having doubled the elements from `i` to `len`,
and leaves the elements from `len` on as they were. -/
theorem process_array_loop_spec (len : Nat) (hlen : len < 2 ^ 64) :
    ∀ (fuel i : Nat) (pre post : List Int), pre.length = i → i ≤ len →
      len - i ≤ fuel → len - i ≤ post.length →
      process_array_loop len fuel i (pre ++ post)
        = .ok (pre ++ (post.take (len - i)).map (fun v => wrap_int (v * 2))
            ++ post.drop (len - i)) := by
  intro fuel
  induction fuel with
  | zero =>
    intro i pre post _ hi hfuel _
    have e : len - i = 0 := by omega
    have hge : ¬ i < len := by omega
    simp [process_array_loop, hge, e]
  | succ fuel ih =>
    intro i pre post hpre hi hfuel hpost
    by_cases hlt : i < len
    · obtain ⟨p, post1, rfl⟩ : ∃ p post1, post = p :: post1 := by
        cases post with
        | nil => simp only [List.length_nil] at hpost; omega
        | cons p post1 => exact ⟨p, post1, rfl⟩
      have hrd : i < (pre ++ p :: post1).length := by
        simp only [List.length_append, List.length_cons]; omega
      have hget : (pre ++ p :: post1).get ⟨i, hrd⟩ = p := by
        simp only [List.get_eq_getElem]
        rw [List.getElem_append_right (by omega)]
        simp [hpre]
      have hset : (pre ++ p :: post1).set i (wrap_int (p * 2))
          = (pre ++ [wrap_int (p * 2)]) ++ post1 := by
        rw [List.set_append_right i _ (by omega)]
        have e0 : i - pre.length = 0 := by omega
        rw [e0]
        simp
      have hstep : process_array_loop len (fuel + 1) i (pre ++ p :: post1)
          = process_array_loop len fuel (i + 1) ((pre ++ [wrap_int (p * 2)]) ++ post1) := by
        rw [process_array_loop, if_pos hlt, load_of_lt _ _ hrd, ok_bind, hget,
          store_of_lt _ _ _ hrd, ok_bind, hset, size_add_of_lt (by omega)]
      rw [hstep, ih (i + 1) _ post1 (by simp [hpre]) (by omega) (by omega)
        (by simp only [List.length_cons] at hpost; omega)]
      have e1 : len - i = (len - (i + 1)) + 1 := by omega
      rw [e1, List.take_succ_cons, List.drop_succ_cons]
      simp
    · have e : len - i = 0 := by omega
      simp [process_array_loop, hlt, e]

/-- The array after `process_array`: the first `len` elements doubled in `int`
arithmetic, the others as they were. -/
theorem process_array_eq (arr : List Int) (len : Nat) (hle : len ≤ arr.length)
    (hlen : len ≤ SIZE_MAX) :
    process_array arr len
      = .ok ((arr.take len).map (fun v => wrap_int (v * 2)) ++ arr.drop len) := by
  have hlen2 : len < 2 ^ 64 := by unfold SIZE_MAX at hlen; omega
  have h := process_array_loop_spec len hlen2 len 0 [] arr rfl (Nat.zero_le _)
    (by omega) (by omega)
  simpa [process_array] using h

/-! ## `process_array`: the contract -/

/-- Claim C5, as stated, fails: on the one-element array that holds `2^30`,
`process_array` stores `-2^31`, which is not `2 * 2^30`. -/
theorem process_array_doubles_counterexample :
    process_array [1073741824] 1 = .ok [-2147483648] ∧
    ¬ ∃ A1, process_array [1073741824] 1 = .ok A1 ∧
        ∀ i v, i < 1 → ([1073741824] : List Int)[i]? = some v → A1[i]? = some (2 * v) := by
  have hrun : process_array [1073741824] 1 = .ok [-2147483648] := rfl
  refine ⟨hrun, ?_⟩
  rintro ⟨A1, h, hall⟩
  rw [hrun] at h
  injection h with h
  subst h
  have h0 := hall 0 1073741824 (by decide) rfl
  simp at h0

/-- Claim C5, amended. For every array `A` and every length `n ≤ |A|`,
`process_array` returns, and after it the element at every index `i < n` whose
value `v` before the call satisfies `-2^30 ≤ v < 2^30` is `2 * v`. -/
theorem process_array_doubles (A : List Int) (n : Nat) (hle : n ≤ A.length)
    (hlen : n ≤ SIZE_MAX) :
    ∃ A1, process_array A n = .ok A1 ∧
      ∀ i v, i < n → A[i]? = some v → -(2 ^ 30) ≤ v → v < 2 ^ 30 →
        A1[i]? = some (2 * v) := by
  refine ⟨_, process_array_eq A n hle hlen, ?_⟩
  intro i v hi hv hlo hhi
  have hw : wrap_int (v * 2) = 2 * v := by
    rw [wrap_int_of_range (by unfold INT_MIN; omega) (by unfold INT_MAX; omega)]
    ring
  rw [List.getElem?_append_left (by simp; omega)]
  simp [List.getElem?_take, hi, hv, hw]

theorem process_array_doubles_witness :
    ∃ A1, process_array [3, -4, 1073741823, 7] 3 = .ok A1 ∧
      ∀ i v, i < 3 → ([3, -4, 1073741823, 7] : List Int)[i]? = some v →
        -(2 ^ 30) ≤ v → v < 2 ^ 30 → A1[i]? = some (2 * v) :=
  process_array_doubles [3, -4, 1073741823, 7] 3 (by decide) (by decide)

/-- Claim C6. For every array `A` and every length `n ≤ |A|`, `process_array`
returns an array of the size of `A` whose element at every index `i ≥ n` is the
one of `A`; with `n = 0` the array is `A`. -/
theorem process_array_frame (A : List Int) (n : Nat) (hle : n ≤ A.length)
    (hlen : n ≤ SIZE_MAX) :
    ∃ A1, process_array A n = .ok A1 ∧ A1.length = A.length ∧
      (∀ i, n ≤ i → A1[i]? = A[i]?) ∧ (n = 0 → A1 = A) := by
  refine ⟨_, process_array_eq A n hle hlen, ?_, ?_, ?_⟩
  · simp only [List.length_append, List.length_map, List.length_take, List.length_drop]
    omega
  · intro i hi
    rw [List.getElem?_append_right (by simp; omega)]
    simp only [List.length_map, List.length_take, List.getElem?_drop]
    congr 1
    omega
  · intro h0
    subst h0
    simp

theorem process_array_frame_witness :
    ∃ A1, process_array [3, -4, 1073741824, 7, 9] 3 = .ok A1 ∧
      A1.length = ([3, -4, 1073741824, 7, 9] : List Int).length ∧
      (∀ i, 3 ≤ i → A1[i]? = ([3, -4, 1073741824, 7, 9] : List Int)[i]?) ∧
      (3 = 0 → A1 = [3, -4, 1073741824, 7, 9]) :=
  process_array_frame [3, -4, 1073741824, 7, 9] 3 (by decide) (by decide)

/-! ## `process_with_callback`: the contract -/

/-- The loop of `process_with_callback` started at `i`: it returns, the array
is as it was, and the state of the caller is the one reached by the calls of
the callback on the elements from `i` to `len`, in ascending order. -/
theorem process_with_callback_loop_spec {σ : Type} (arr : List Int) (len : Nat)
    (callback : Int → σ → σ) (hle : len ≤ arr.length) (hlen : len < 2 ^ 64) :
    ∀ (fuel i : Nat) (st : σ), i ≤ len → len - i ≤ fuel →
      process_with_callback_loop len callback fuel i (arr, st)
        = .ok (arr, ((arr.drop i).take (len - i)).foldl (fun s v => callback v s) st) := by
  intro fuel
  induction fuel with
  | zero =>
    intro i st hi hfuel
    have e : len - i = 0 := by omega
    have hge : ¬ i < len := by omega
    simp [process_with_callback_loop, hge, e]
  | succ fuel ih =>
    intro i st hi hfuel
    by_cases hlt : i < len
    · have hrd : i < arr.length := by omega
      have e1 : len - i = (len - (i + 1)) + 1 := by omega
      rw [process_with_callback_loop, if_pos hlt, load_of_lt _ _ hrd, ok_bind,
        size_add_of_lt (by omega), ih (i + 1) _ (by omega) (by omega),
        List.drop_eq_getElem_cons hrd, e1, List.take_succ_cons, List.foldl_cons]
      rfl
    · have e : len - i = 0 := by omega
      simp [process_with_callback_loop, hlt, e]

/-- Claim C7. For every array `A`, every length `n ≤ |A|` and every callback,
`process_with_callback` returns, and the state of the caller after it is the
one reached by calling the callback on `A[0]`, `A[1]`, ..., `A[n-1]`, in that
order and once each.  So a callback that appends its argument to a log, started
on the empty log, leaves the log `A[0], ..., A[n-1]`, of length `n`; and with
`n = 0` the state of the caller is untouched. -/
theorem process_with_callback_calls {σ : Type} (A : List Int) (n : Nat)
    (callback : Int → σ → σ) (st : σ) (hle : n ≤ A.length) (hlen : n ≤ SIZE_MAX) :
    process_with_callback A n callback st
        = .ok (A, (A.take n).foldl (fun s v => callback v s) st) ∧
      process_with_callback A n (fun v (log : List Int) => log ++ [v]) []
        = .ok (A, A.take n) ∧
      (A.take n).length = n ∧
      (∀ i, i < n → (A.take n)[i]? = A[i]?) ∧
      (n = 0 → process_with_callback A n callback st = .ok (A, st)) := by
  have hlen2 : n < 2 ^ 64 := by unfold SIZE_MAX at hlen; omega
  have hrun : ∀ {τ : Type} (cb : Int → τ → τ) (t : τ),
      process_with_callback A n cb t = .ok (A, (A.take n).foldl (fun s v => cb v s) t) := by
    intro τ cb t
    have h := process_with_callback_loop_spec A n cb hle hlen2 n 0 t (Nat.zero_le _) (by omega)
    simpa [process_with_callback] using h
  have hlog : ∀ (l acc : List Int),
      l.foldl (fun (s : List Int) v => s ++ [v]) acc = acc ++ l := by
    intro l
    induction l with
    | nil => intro acc; simp
    | cons a l ih => intro acc; simp [ih]
  refine ⟨hrun callback st, ?_, by simp [hle], ?_, ?_⟩
  · rw [hrun, hlog]
    simp
  · intro i hi
    simp [List.getElem?_take, hi]
  · intro h0
    subst h0
    rw [hrun]
    simp

theorem process_with_callback_calls_witness :
    process_with_callback [5, -6, 7, 8] 3 (fun v (s : Int) => 10 * s + v) 0
        = .ok ([5, -6, 7, 8],
            (([5, -6, 7, 8] : List Int).take 3).foldl (fun s v => 10 * s + v) 0) ∧
      process_with_callback [5, -6, 7, 8] 3 (fun v (log : List Int) => log ++ [v]) []
        = .ok ([5, -6, 7, 8], ([5, -6, 7, 8] : List Int).take 3) ∧
      (([5, -6, 7, 8] : List Int).take 3).length = 3 ∧
      (∀ i, i < 3 → (([5, -6, 7, 8] : List Int).take 3)[i]? = ([5, -6, 7, 8] : List Int)[i]?) ∧
      (3 = 0 → process_with_callback [5, -6, 7, 8] 3 (fun v (s : Int) => 10 * s + v) 0
        = .ok ([5, -6, 7, 8], 0)) :=
  process_with_callback_calls [5, -6, 7, 8] 3 (fun v (s : Int) => 10 * s + v) 0
    (by decide) (by decide)

/-! ## `create_point`: the contract -/

/-- Claim C8 fails on the code. For `x = 46341` and `y = 0`, both of them `int`
values, `create_point` computes `x * x + y * y` on `int` and hands the square
root the radicand `-2147479015`, not `46341^2 + 0^2 = 2147488281`: the
distance field is the square root of a negative number, whatever the square
root function is. -/
theorem create_point_overflow {δ : Type} (sqrt : Int → δ) :
    (INT_MIN ≤ 46341 ∧ (46341 : Int) ≤ INT_MAX) ∧
    create_point_radicand 46341 0 = -2147479015 ∧
    (create_point sqrt 46341 0).distance = sqrt (-2147479015) ∧
    (46341 : Int) ^ 2 + 0 ^ 2 = 2147488281 ∧
    ¬ (create_point_radicand 46341 0 = 46341 ^ 2 + 0 ^ 2) := by
  have h : create_point_radicand 46341 0 = -2147479015 := by decide
  refine ⟨⟨by decide, by decide⟩, h, ?_, by decide, by decide⟩
  simp only [create_point, h]

/-- Where the sum of the squares is an `int`, `x^2 + y^2 ≤ 2^31 - 1`, the
radicand that `create_point` hands to the square root is `x^2 + y^2` exactly,
and the distance field is the square root of `x^2 + y^2`. -/
theorem create_point_distance {δ : Type} (sqrt : Int → δ) (x y : Int)
    (hfit : x ^ 2 + y ^ 2 ≤ INT_MAX) :
    create_point_radicand x y = x ^ 2 + y ^ 2 ∧
      (create_point sqrt x y).distance = sqrt (x ^ 2 + y ^ 2) := by
  have hx : 0 ≤ x * x := mul_self_nonneg x
  have hy : 0 ≤ y * y := mul_self_nonneg y
  have hsum : x * x + y * y ≤ INT_MAX := by
    have e : x * x + y * y = x ^ 2 + y ^ 2 := by ring
    rw [e]; exact hfit
  have h0 : INT_MIN ≤ 0 := by decide
  have hrad : create_point_radicand x y = x ^ 2 + y ^ 2 := by
    unfold create_point_radicand
    rw [wrap_int_of_range (le_trans h0 hx) (by linarith),
      wrap_int_of_range (le_trans h0 hy) (by linarith),
      wrap_int_of_range (le_trans h0 (by linarith)) hsum]
    ring
  exact ⟨hrad, by simp only [create_point, hrad]⟩

theorem create_point_distance_witness :
    create_point_radicand (-3) 4 = (-3) ^ 2 + 4 ^ 2 ∧
      (create_point Int.sqrt (-3) 4).distance = Int.sqrt ((-3) ^ 2 + 4 ^ 2) :=
  create_point_distance Int.sqrt (-3) 4 (by decide)

/-! ## `add_numbers`: the contract -/

/-- Claim C9, as stated, fails: `add_numbers(2147483647, 1)` is `-2147483648`,
not `2147483648`. -/
theorem add_numbers_sum_counterexample :
    add_numbers 2147483647 1 = -2147483648 ∧
    ¬ (add_numbers 2147483647 1 = 2147483647 + 1) := by
  refine ⟨by decide, by decide⟩

/-- Claim C9, amended. For all integers `a` and `b` whose sum is an `int`, that
is `-2^31 ≤ a + b ≤ 2^31 - 1`, `add_numbers a b` is `a + b`. -/
theorem add_numbers_sum (a b : Int) (hlo : INT_MIN ≤ a + b) (hhi : a + b ≤ INT_MAX) :
    add_numbers a b = a + b :=
  wrap_int_of_range hlo hhi

theorem add_numbers_sum_witness : add_numbers (-7) 12 = -7 + 12 :=
  add_numbers_sum (-7) 12 (by decide) (by decide)

/-! ## `compute_pi_monte_carlo`: the estimate on exact rationals -/

theorem countP_range_succ (p : Nat → Bool) (k : Nat) :
    (List.range (k + 1)).countP p
      = (if p 0 then 1 else 0) + (List.range k).countP (fun j => p (j + 1)) := by
  rw [List.range_succ_eq_map, List.countP_cons, List.countP_map]
  have e : (p ∘ Nat.succ) = fun j => p (j + 1) := rfl
  rw [e]
  omega

theorem iteration_inside_succ (RAND_MAX : Nat) (rand : Nat → Nat) (pos j : Nat) :
    iteration_inside RAND_MAX rand pos (j + 1) = iteration_inside RAND_MAX rand (pos + 2) j := by
  have e1 : pos + 2 * (j + 1) = pos + 2 + 2 * j := by ring
  unfold iteration_inside
  rw [e1]

/-- The loop of `compute_pi_monte_carlo` on a count `m` that is an `int`,
started at the iteration `a` with the counter `c ≤ a`: it returns, the counter
has grown by the number of the remaining iterations that are inside, and the
generator has moved by two draws for each of them. -/
theorem monte_carlo_loop_spec (RAND_MAX : Nat) (rand : Nat → Nat) (m : Nat)
    (hm : (m : Int) ≤ INT_MAX) :
    ∀ (fuel a c pos : Nat), a ≤ m → c ≤ a → m - a ≤ fuel →
      monte_carlo_loop RAND_MAX rand (m : Int) fuel (a : Int) (c : Int) pos
        = .ok (((c + (List.range (m - a)).countP (iteration_inside RAND_MAX rand pos) : Nat) : Int),
            pos + 2 * (m - a)) := by
  unfold INT_MAX at hm
  intro fuel
  induction fuel with
  | zero =>
    intro a c pos ha hc hfuel
    have e : m - a = 0 := by omega
    have hge : ¬ ((a : Int) < (m : Int)) := by omega
    simp [monte_carlo_loop, hge, e]
  | succ fuel ih =>
    intro a c pos ha hc hfuel
    by_cases hlt : a < m
    · have hlt2 : (a : Int) < (m : Int) := by omega
      have hi : wrap_int ((a : Int) + 1) = ((a + 1 : Nat) : Int) := by
        rw [wrap_int_of_range (by unfold INT_MIN; omega) (by unfold INT_MAX; omega)]
        push_cast
        rfl
      have hc1 : wrap_int ((c : Int) + 1) = ((c + 1 : Nat) : Int) := by
        rw [wrap_int_of_range (by unfold INT_MIN; omega) (by unfold INT_MAX; omega)]
        push_cast
        rfl
      have e1 : m - a = (m - (a + 1)) + 1 := by omega
      have hshift : (fun j => iteration_inside RAND_MAX rand pos (j + 1))
          = iteration_inside RAND_MAX rand (pos + 2) :=
        funext (iteration_inside_succ RAND_MAX rand pos)
      have hpos : pos + 2 + 2 * (m - (a + 1)) = pos + 2 * (m - (a + 1) + 1) := by ring
      rw [monte_carlo_loop, if_pos hlt2, hi, e1, countP_range_succ, hshift]
      by_cases hin : coordinate RAND_MAX (rand pos) * coordinate RAND_MAX (rand pos)
          + coordinate RAND_MAX (rand (pos + 1)) * coordinate RAND_MAX (rand (pos + 1)) ≤ 1
      · have h0 : iteration_inside RAND_MAX rand pos 0 = true := by
          simp only [iteration_inside, Nat.mul_zero, Nat.add_zero]
          exact decide_eq_true hin
        simp only [hin, if_true, hc1, h0]
        rw [ih (a + 1) (c + 1) (pos + 2) (by omega) (by omega) (by omega), hpos,
          Nat.add_assoc c 1]
      · have h0 : iteration_inside RAND_MAX rand pos 0 = false := by
          simp only [iteration_inside, Nat.mul_zero, Nat.add_zero]
          exact decide_eq_false hin
        simp only [hin, if_false, h0]
        rw [ih (a + 1) c (pos + 2) (by omega) (by omega) (by omega), hpos]
        simp
    · have e : m - a = 0 := by omega
      have hge : ¬ ((a : Int) < (m : Int)) := by omega
      simp [monte_carlo_loop, hge, e]

/-- The estimate in the arithmetic of exact rationals, which is not the one of
the machine: for every positive count `n` (an `int`), `compute_pi_monte_carlo`
on exact rationals moves the generator by `2 * n` draws and returns `4 * k / n`,
where `k` is the number of iterations `j < n` whose pair of draws satisfies
`x * x + y * y ≤ 1` exactly. -/
theorem compute_pi_monte_carlo_exact_estimate (RAND_MAX : Nat) (rand : Nat → Nat) (pos n : Nat)
    (hpos : 0 < n) (hmax : (n : Int) ≤ INT_MAX) :
    compute_pi_monte_carlo RAND_MAX rand pos (n : Int)
      = .ok (4 * (((List.range n).countP (iteration_inside RAND_MAX rand pos) : Nat) : ℚ)
              / (n : ℚ),
          pos + 2 * n) := by
  have hloop := monte_carlo_loop_spec RAND_MAX rand n hmax n 0 0 pos (Nat.zero_le _)
    (Nat.le_refl _) (by omega)
  have hne : ¬ ((n : Int) = 0) := by omega
  simp only [Nat.sub_zero, Nat.zero_add, Nat.cast_zero] at hloop
  simp only [compute_pi_monte_carlo, Int.toNat_ofNat, hloop, ok_bind, if_neg hne]
  simp
  rfl

theorem compute_pi_monte_carlo_exact_estimate_witness :
    compute_pi_monte_carlo 4 (fun k => k + 2) 0 ((3 : Nat) : Int)
      = .ok (4 * (((List.range 3).countP (iteration_inside 4 (fun k => k + 2) 0) : Nat) : ℚ)
              / ((3 : Nat) : ℚ),
          0 + 2 * 3) :=
  compute_pi_monte_carlo_exact_estimate 4 (fun k => k + 2) 0 3 (by decide) (by decide)

/-! ## `compute_pi_monte_carlo`: the contract -/

theorem iteration_inside_fp_succ {δ : Type} (F : DoubleArith δ) (RAND_MAX : Nat)
    (rand : Nat → Nat) (pos j : Nat) :
    iteration_inside_fp F RAND_MAX rand pos (j + 1)
      = iteration_inside_fp F RAND_MAX rand (pos + 2) j := by
  have e1 : pos + 2 * (j + 1) = pos + 2 + 2 * j := by ring
  unfold iteration_inside_fp
  rw [e1]

/-- The loop of `compute_pi_monte_carlo` in an arithmetic `F`, on a count `m`
that is an `int`, started at the iteration `a` with the counter `c ≤ a`: it
returns, the counter has grown by the number of the remaining iterations whose
test holds in `F`, and the generator has moved by two draws for each of them. -/
theorem monte_carlo_loop_fp_spec {δ : Type} (F : DoubleArith δ) (RAND_MAX : Nat)
    (rand : Nat → Nat) (m : Nat) (hm : (m : Int) ≤ INT_MAX) :
    ∀ (fuel a c pos : Nat), a ≤ m → c ≤ a → m - a ≤ fuel →
      monte_carlo_loop_fp F RAND_MAX rand (m : Int) fuel (a : Int) (c : Int) pos
        = .ok (((c + (List.range (m - a)).countP (iteration_inside_fp F RAND_MAX rand pos) : Nat)
              : Int),
            pos + 2 * (m - a)) := by
  unfold INT_MAX at hm
  intro fuel
  induction fuel with
  | zero =>
    intro a c pos ha hc hfuel
    have e : m - a = 0 := by omega
    have hge : ¬ ((a : Int) < (m : Int)) := by omega
    simp [monte_carlo_loop_fp, hge, e]
  | succ fuel ih =>
    intro a c pos ha hc hfuel
    by_cases hlt : a < m
    · have hlt2 : (a : Int) < (m : Int) := by omega
      have hi : wrap_int ((a : Int) + 1) = ((a + 1 : Nat) : Int) := by
        rw [wrap_int_of_range (by unfold INT_MIN; omega) (by unfold INT_MAX; omega)]
        push_cast
        rfl
      have hc1 : wrap_int ((c : Int) + 1) = ((c + 1 : Nat) : Int) := by
        rw [wrap_int_of_range (by unfold INT_MIN; omega) (by unfold INT_MAX; omega)]
        push_cast
        rfl
      have e1 : m - a = (m - (a + 1)) + 1 := by omega
      have hshift : (fun j => iteration_inside_fp F RAND_MAX rand pos (j + 1))
          = iteration_inside_fp F RAND_MAX rand (pos + 2) :=
        funext (iteration_inside_fp_succ F RAND_MAX rand pos)
      have hpos : pos + 2 + 2 * (m - (a + 1)) = pos + 2 * (m - (a + 1) + 1) := by ring
      have h0 : iteration_inside_fp F RAND_MAX rand pos 0
          = inside_fp F RAND_MAX (rand pos) (rand (pos + 1)) := by
        simp only [iteration_inside_fp, Nat.mul_zero, Nat.add_zero]
      rw [monte_carlo_loop_fp, if_pos hlt2, hi, e1, countP_range_succ, hshift, h0]
      cases hin : inside_fp F RAND_MAX (rand pos) (rand (pos + 1)) with
      | true =>
        simp only [if_true, hc1]
        rw [ih (a + 1) (c + 1) (pos + 2) (by omega) (by omega) (by omega), hpos,
          Nat.add_assoc c 1]
      | false =>
        simp only [Bool.false_eq_true, if_false]
        rw [ih (a + 1) c (pos + 2) (by omega) (by omega) (by omega), hpos]
        simp
    · have e : m - a = 0 := by omega
      have hge : ¬ ((a : Int) < (m : Int)) := by omega
      simp [monte_carlo_loop_fp, hge, e]

/-- The loop on exact rationals is the loop in the arithmetic `exact_arith`. -/
theorem monte_carlo_loop_fp_exact (RAND_MAX : Nat) (rand : Nat → Nat) (iterations : Int) :
    ∀ (fuel : Nat) (i c : Int) (pos : Nat),
      monte_carlo_loop_fp exact_arith RAND_MAX rand iterations fuel i c pos
        = monte_carlo_loop RAND_MAX rand iterations fuel i c pos := by
  have htest : ∀ rx ry : Nat, (inside_fp exact_arith RAND_MAX rx ry = true)
      ↔ coordinate RAND_MAX rx * coordinate RAND_MAX rx
          + coordinate RAND_MAX ry * coordinate RAND_MAX ry ≤ 1 := by
    intro rx ry
    simp [inside_fp, coordinate_fp, exact_arith, coordinate]
  intro fuel
  induction fuel with
  | zero =>
    intro i c pos
    rw [monte_carlo_loop_fp, monte_carlo_loop]
  | succ fuel ih =>
    intro i c pos
    rw [monte_carlo_loop_fp, monte_carlo_loop]
    by_cases hlt : i < iterations
    · rw [if_pos hlt, if_pos hlt, ih]
      by_cases hin : coordinate RAND_MAX (rand pos) * coordinate RAND_MAX (rand pos)
          + coordinate RAND_MAX (rand (pos + 1)) * coordinate RAND_MAX (rand (pos + 1)) ≤ 1
      · simp only [(htest _ _).mpr hin, hin, if_true]
      · have hf : inside_fp exact_arith RAND_MAX (rand pos) (rand (pos + 1)) = false := by
          cases h : inside_fp exact_arith RAND_MAX (rand pos) (rand (pos + 1)) with
          | true => exact absurd ((htest _ _).mp h) hin
          | false => rfl
        simp [hf, hin]
    · rw [if_neg hlt, if_neg hlt]

set_option maxRecDepth 100000 in
/-- Claim C10, as stated, fails on a machine whose `double` is binary64, with
`RAND_MAX = 2147483647` and one iteration.  On the draws `2147483647`, `1` the
sum `x * x + y * y` is rounded to `1.0`: the iteration is counted and the
function returns `4.0`, though over exact rationals the sum exceeds `1`, the
count `k` is `0` and `4 * k / n` is `0`.  On the draws `72219823`, `2146268928`
the sum is rounded above `1.0`: the function returns `0.0`, though over exact
rationals the sum is at most `1`, `k` is `1` and `4 * k / n` is `4`. -/
theorem compute_pi_monte_carlo_estimate_counterexample :
    (compute_pi_monte_carlo_fp binary64 2147483647 (two_draws 2147483647 1) 0 1
        = .ok (F64.ofInt 4, 2) ∧
      (List.range 1).countP (iteration_inside 2147483647 (two_draws 2147483647 1) 0) = 0 ∧
      compute_pi_monte_carlo 2147483647 (two_draws 2147483647 1) 0 1 = .ok (0, 2)) ∧
    (compute_pi_monte_carlo_fp binary64 2147483647 (two_draws 72219823 2146268928) 0 1
        = .ok (F64.ofInt 0, 2) ∧
      (List.range 1).countP (iteration_inside 2147483647 (two_draws 72219823 2146268928) 0) = 1 ∧
      compute_pi_monte_carlo 2147483647 (two_draws 72219823 2146268928) 0 1 = .ok (4, 2)) ∧
    F64.ofInt 4 ≠ F64.ofInt 0 := by
  have hA : iteration_inside 2147483647 (two_draws 2147483647 1) 0 0 = false := by
    simp only [iteration_inside, two_draws, coordinate]
    norm_num
  have hB : iteration_inside 2147483647 (two_draws 72219823 2146268928) 0 0 = true := by
    simp only [iteration_inside, two_draws, coordinate]
    norm_num
  have h1 : ((1 : Nat) : Int) = 1 := rfl
  refine ⟨⟨rfl, ?_, ?_⟩, ⟨rfl, ?_, ?_⟩, by decide⟩
  · simp [List.range_succ, hA]
  · have h := compute_pi_monte_carlo_exact_estimate 2147483647 (two_draws 2147483647 1) 0 1
      (by decide) (by decide)
    rw [h1] at h
    rw [h]
    simp [List.range_succ, hA]
  · simp [List.range_succ, hB]
  · have h := compute_pi_monte_carlo_exact_estimate 2147483647 (two_draws 72219823 2146268928) 0 1
      (by decide) (by decide)
    rw [h1] at h
    rw [h]
    simp [List.range_succ, hB]

/-- Claim C10, amended. For every positive iteration count `n` (an `int`), every
stream of draws and every arithmetic `F` of `double`, `compute_pi_monte_carlo`
returns, has moved the generator by exactly `2 * n` draws, and its result is
`4.0 * k / n` computed in `F`, where `k` is the number of iterations `j < n`
whose pair, the draws `2 * j` and `2 * j + 1` in order as `x` and `y`, satisfies
the test `x * x + y * y <= 1.0` as `F` computes it, with its roundings. -/
theorem compute_pi_monte_carlo_fp_estimate {δ : Type} (F : DoubleArith δ) (RAND_MAX : Nat)
    (rand : Nat → Nat) (pos n : Nat) (hpos : 0 < n) (hmax : (n : Int) ≤ INT_MAX) :
    compute_pi_monte_carlo_fp F RAND_MAX rand pos (n : Int)
      = .ok (F.div
            (F.mul (F.ofInt 4)
              (F.ofInt (((List.range n).countP (iteration_inside_fp F RAND_MAX rand pos) : Nat)
                : Int)))
            (F.ofInt (n : Int)),
          pos + 2 * n) := by
  have hloop := monte_carlo_loop_fp_spec F RAND_MAX rand n hmax n 0 0 pos (Nat.zero_le _)
    (Nat.le_refl _) (by omega)
  simp only [Nat.sub_zero, Nat.zero_add, Nat.cast_zero] at hloop
  simp only [compute_pi_monte_carlo_fp, Int.toNat_ofNat, hloop, ok_bind]
  rfl

theorem compute_pi_monte_carlo_fp_estimate_witness :
    compute_pi_monte_carlo_fp binary64 2147483647 (two_draws 65536 2147483646) 0 ((1 : Nat) : Int)
      = .ok (binary64.div
            (binary64.mul (binary64.ofInt 4)
              (binary64.ofInt (((List.range 1).countP
                (iteration_inside_fp binary64 2147483647 (two_draws 65536 2147483646) 0) : Nat)
                : Int)))
            (binary64.ofInt ((1 : Nat) : Int)),
          0 + 2 * 1) :=
  compute_pi_monte_carlo_fp_estimate binary64 2147483647 (two_draws 65536 2147483646) 0 1
    (by decide) (by decide)

/-! ## `compute_pi_monte_carlo`: counts that are not positive -/

/-- With a count that is not positive the loop of `compute_pi_monte_carlo` runs
no iteration: it returns the counter and the position it was started on. -/
theorem monte_carlo_loop_nonpos (RAND_MAX : Nat) (rand : Nat → Nat) (n : Int) (hn : n ≤ 0)
    (fuel : Nat) (c : Int) (pos : Nat) :
    monte_carlo_loop RAND_MAX rand n fuel 0 c pos = .ok (c, pos) := by
  have hge : ¬ ((0 : Int) < n) := not_lt.mpr hn
  cases fuel with
  | zero => rw [monte_carlo_loop, if_neg hge]
  | succ fuel => rw [monte_carlo_loop, if_neg hge]

/-- Claim C11, as stated, fails: with the count `0` the run of
`compute_pi_monte_carlo` ends in the division by the zero count, and yields no
value. -/
theorem compute_pi_monte_carlo_zero_counterexample :
    compute_pi_monte_carlo 32767 (fun k => k) 0 0 = .error .divByZero ∧
    ¬ ∃ v, compute_pi_monte_carlo 32767 (fun k => k) 0 0 = .ok v := by
  have h : compute_pi_monte_carlo 32767 (fun k => k) 0 0 = .error .divByZero := by
    simp only [compute_pi_monte_carlo, monte_carlo_loop_nonpos _ _ 0 (le_refl 0), ok_bind]
    rfl
  refine ⟨h, ?_⟩
  rintro ⟨v, hv⟩
  rw [h] at hv
  cases hv

/-- Claim C11, amended. With the count `0`, whatever the generator holds,
`compute_pi_monte_carlo` runs no iteration of its loop and draws nothing, and
then divides by the count: the run ends in the division by zero, there is no
guard and no value chosen for this case. -/
theorem compute_pi_monte_carlo_zero (RAND_MAX : Nat) (rand : Nat → Nat) (pos : Nat) :
    (∀ fuel, monte_carlo_loop RAND_MAX rand 0 fuel 0 0 pos = .ok (0, pos)) ∧
    compute_pi_monte_carlo RAND_MAX rand pos 0 = .error .divByZero := by
  refine ⟨fun fuel => monte_carlo_loop_nonpos RAND_MAX rand 0 (le_refl 0) fuel 0 pos, ?_⟩
  simp only [compute_pi_monte_carlo, monte_carlo_loop_nonpos _ _ 0 (le_refl 0), ok_bind]
  rfl

/-- Claim C20. For every negative count `n`, whatever the generator holds,
`compute_pi_monte_carlo` runs no iteration of its loop, draws nothing (the
position of the generator is the one before the call), and returns `4 * 0 / n`,
which is zero: a value, not an error, and the same for every generator. -/
theorem compute_pi_monte_carlo_negative (RAND_MAX : Nat) (rand : Nat → Nat) (pos : Nat)
    (n : Int) (hn : n < 0) :
    (∀ fuel, monte_carlo_loop RAND_MAX rand n fuel 0 0 pos = .ok (0, pos)) ∧
    compute_pi_monte_carlo RAND_MAX rand pos n = .ok (4 * 0 / (n : ℚ), pos) ∧
    compute_pi_monte_carlo RAND_MAX rand pos n = .ok (0, pos) ∧
    (∀ (RAND_MAX2 : Nat) (rand2 : Nat → Nat),
      compute_pi_monte_carlo RAND_MAX2 rand2 pos n = compute_pi_monte_carlo RAND_MAX rand pos n) := by
  have hne : ¬ (n = 0) := by omega
  have hrun : ∀ (R : Nat) (g : Nat → Nat),
      compute_pi_monte_carlo R g pos n = .ok (4 * 0 / (n : ℚ), pos) := by
    intro R g
    simp only [compute_pi_monte_carlo, monte_carlo_loop_nonpos R g n (le_of_lt hn), ok_bind,
      if_neg hne]
    simp
    rfl
  refine ⟨fun fuel => monte_carlo_loop_nonpos RAND_MAX rand n (le_of_lt hn) fuel 0 pos,
    hrun RAND_MAX rand, ?_, ?_⟩
  · rw [hrun]
    simp
  · intro R2 g2
    rw [hrun, hrun]

theorem compute_pi_monte_carlo_negative_witness :
    (∀ fuel, monte_carlo_loop 32767 (fun k => k) (-5) fuel 0 0 3 = .ok (0, 3)) ∧
    compute_pi_monte_carlo 32767 (fun k => k) 3 (-5) = .ok (4 * 0 / (((-5 : Int)) : ℚ), 3) ∧
    compute_pi_monte_carlo 32767 (fun k => k) 3 (-5) = .ok (0, 3) ∧
    (∀ (RAND_MAX2 : Nat) (rand2 : Nat → Nat),
      compute_pi_monte_carlo RAND_MAX2 rand2 3 (-5)
        = compute_pi_monte_carlo 32767 (fun k => k) 3 (-5)) :=
  compute_pi_monte_carlo_negative 32767 (fun k => k) 3 (-5) (by decide)

/-! ## `compute_pi_monte_carlo`: the coordinates -/

/-- Claim C12, as stated, fails: the value `RAND_MAX` of `rand()` gives the
coordinate `1`, which is not below `1`. -/
theorem coordinate_range_counterexample :
    coordinate 32767 32767 = 1 ∧ ¬ (coordinate 32767 32767 < 1) := by
  have h : coordinate 32767 32767 = 1 := by
    unfold coordinate
    norm_num
  exact ⟨h, by rw [h]; exact lt_irrefl 1⟩

/-- Claim C12, amended. For every value `r` of `rand()`, `0 ≤ r ≤ RAND_MAX`,
the coordinate `r / RAND_MAX` lies in the closed interval `[0, 1]`; it is below
`1` exactly when `r < RAND_MAX`. -/
theorem coordinate_range (RAND_MAX r : Nat) (hmax : 0 < RAND_MAX) (hr : r ≤ RAND_MAX) :
    0 ≤ coordinate RAND_MAX r ∧ coordinate RAND_MAX r ≤ 1 ∧
      (coordinate RAND_MAX r < 1 ↔ r < RAND_MAX) := by
  have hpos : (0 : ℚ) < (RAND_MAX : ℚ) := by exact_mod_cast hmax
  have hle : (r : ℚ) ≤ (RAND_MAX : ℚ) := by exact_mod_cast hr
  unfold coordinate
  refine ⟨div_nonneg (Nat.cast_nonneg r) (le_of_lt hpos), (div_le_one hpos).mpr hle, ?_⟩
  rw [div_lt_one hpos]
  exact Nat.cast_lt

theorem coordinate_range_witness :
    0 ≤ coordinate 32767 12345 ∧ coordinate 32767 12345 ≤ 1 ∧
      (coordinate 32767 12345 < 1 ↔ 12345 < 32767) :=
  coordinate_range 32767 12345 (by decide) (by decide)

/-! ## `create_point`: the coordinates -/

/-- Claim C15. For all integers `x` and `y`, the record that `create_point`
returns has the first argument in its field `x` and the second argument in its
field `y`, unchanged and not swapped. -/
theorem create_point_fields {δ : Type} (sqrt : Int → δ) (x y : Int) :
    (create_point sqrt x y).x = x ∧ (create_point sqrt x y).y = y := by
  constructor
  · rfl
  · rfl

/-! ## `free_string`: the contract -/

theorem le_foldr_max (l : List Nat) : ∀ a ∈ l, a ≤ l.foldr max 0 := by
  induction l with
  | nil => intro a ha; cases ha
  | cons b l ih =>
    intro a ha
    rw [List.foldr_cons]
    rcases List.mem_cons.mp ha with h | h
    · rw [h]; exact le_max_left _ _
    · exact le_trans (ih a h) (le_max_right _ _)

/-- No live block has the address that `malloc` returns. -/
theorem fresh_address_fresh (heap : Heap) : ∀ b ∈ heap, b.1 ≠ fresh_address heap := by
  intro b hb
  have h := le_foldr_max (heap.map Prod.fst) b.1 (List.mem_map_of_mem Prod.fst hb)
  unfold fresh_address
  omega

/-- To release the address of a live block that no other live block has leaves
the other live blocks, and only them. -/
theorem free_live (pre post : Heap) (p : Nat) (buf : List Nat)
    (hpre : ∀ b ∈ pre, b.1 ≠ p) (hpost : ∀ b ∈ post, b.1 ≠ p) :
    free (pre ++ (p, buf) :: post) p = .ok (pre ++ post) := by
  have hany : (pre ++ (p, buf) :: post).any (fun b => b.1 == p) = true := by
    simp
  have hkeep : ∀ (l : Heap), (∀ b ∈ l, b.1 ≠ p) → l.filter (fun b => b.1 != p) = l := by
    intro l hl
    rw [List.filter_eq_self]
    intro b hb
    simpa using hl b hb
  unfold free
  rw [if_pos hany, List.filter_append, List.filter_cons, hkeep pre hpre, hkeep post hpost]
  simp

/-- Claim C13. On an absent reference `free_string` returns and the live blocks
are the ones before the call.  On the buffer that `reverse_string` has returned
for a present string, `free_string` returns and the live blocks are the ones
before the call but that buffer: the blocks that were live before
`reverse_string` and the blocks `later` allocated after it all stay. -/
theorem free_string_live_set (heap : Heap) (junk : Nat → Nat) (s rest : List Nat)
    (hs : ∀ c ∈ s, c ≠ 0) (hlen : s.length < SIZE_MAX) :
    free_string heap none = .ok heap ∧
    ∃ p buf, reverse_string_alloc heap junk (some (s ++ 0 :: rest))
          = .ok (some p, (p, buf) :: heap) ∧
        (∀ b ∈ heap, b.1 ≠ p) ∧
        free_string ((p, buf) :: heap) (some p) = .ok heap ∧
        (∀ later : Heap, (∀ b ∈ later, b.1 ≠ p) →
          free_string (later ++ (p, buf) :: heap) (some p) = .ok (later ++ heap)) := by
  refine ⟨rfl, fresh_address heap, s.reverse ++ [0], ?_, fresh_address_fresh heap, ?_, ?_⟩
  · simp only [reverse_string_alloc, reverse_string_terminated junk s rest hs hlen, ok_bind]
    rfl
  · exact free_live [] heap _ _ (fun b hb => by cases hb) (fresh_address_fresh heap)
  · intro later hlater
    exact free_live later heap _ _ hlater (fresh_address_fresh heap)

theorem free_string_live_set_witness :
    free_string [(4, [1, 0]), (2, [0])] none = .ok [(4, [1, 0]), (2, [0])] ∧
    ∃ p buf, reverse_string_alloc [(4, [1, 0]), (2, [0])] (fun _ => 7)
            (some ([104, 105] ++ 0 :: [9]))
          = .ok (some p, (p, buf) :: [(4, [1, 0]), (2, [0])]) ∧
        (∀ b ∈ ([(4, [1, 0]), (2, [0])] : Heap), b.1 ≠ p) ∧
        free_string ((p, buf) :: [(4, [1, 0]), (2, [0])]) (some p)
          = .ok [(4, [1, 0]), (2, [0])] ∧
        (∀ later : Heap, (∀ b ∈ later, b.1 ≠ p) →
          free_string (later ++ (p, buf) :: [(4, [1, 0]), (2, [0])]) (some p)
            = .ok (later ++ [(4, [1, 0]), (2, [0])])) :=
  free_string_live_set [(4, [1, 0]), (2, [0])] (fun _ => 7) [104, 105] [9]
    (by decide) (by decide)

/-! ## `process_with_callback`: the frame -/

/-- Claim C14. For every array `A`, every length `n ≤ |A|` and every callback
(a transformer of the state of the caller, which does not write to `A`),
`process_with_callback` returns and the array after the call is `A`: the
function only reads the array. -/
theorem process_with_callback_reads_only {σ : Type} (A : List Int) (n : Nat)
    (callback : Int → σ → σ) (st : σ) (hle : n ≤ A.length) (hlen : n ≤ SIZE_MAX) :
    ∃ st1, process_with_callback A n callback st = .ok (A, st1) := by
  have hlen2 : n < 2 ^ 64 := by unfold SIZE_MAX at hlen; omega
  have h := process_with_callback_loop_spec A n callback hle hlen2 n 0 st (Nat.zero_le _)
    (by omega)
  exact ⟨_, h⟩

theorem process_with_callback_reads_only_witness :
    ∃ st1, process_with_callback [5, -6, 7, 8] 4 (fun v (s : Int) => s + v) 0
      = .ok ([5, -6, 7, 8], st1) :=
  process_with_callback_reads_only [5, -6, 7, 8] 4 (fun v (s : Int) => s + v) 0
    (by decide) (by decide)

/-! ## `reverse_string`: the indices -/

/-- Claim C16. For every present string `s` of length `n` and every index
`i < n` of the loop of `reverse_string`: the `size_t` value of `n - 1 - i` is the
integer `n - 1 - i`, which is not negative (and so is that of `n - 1`), and it
is below `n`; the indices `i`
and `n` of the writes are below the `n + 1` slots of the result; the read at
that index of the input and the two writes to a buffer of `n + 1` slots do not
fault; and the call returns without a fault. -/
theorem reverse_string_in_bounds (junk : Nat → Nat) (s rest : List Nat)
    (hs : ∀ c ∈ s, c ≠ 0) (hlen : s.length < SIZE_MAX) (i : Nat) (hi : i < s.length) :
    ((size_sub s.length 1 : Nat) : Int) = (s.length : Int) - 1 ∧
      ((size_sub (size_sub s.length 1) i : Nat) : Int) = (s.length : Int) - 1 - (i : Int) ∧
      size_sub (size_sub s.length 1) i < s.length ∧
      (malloc junk (size_add s.length 1)).length = s.length + 1 ∧
      i < s.length + 1 ∧ s.length < s.length + 1 ∧
      (∃ c, load (s ++ 0 :: rest) (size_sub (size_sub s.length 1) i) = .ok c ∧
        ∀ result : List Nat, result.length = s.length + 1 →
          (∃ r, store result i c = .ok r) ∧ (∃ r, store result s.length 0 = .ok r)) ∧
      (∃ r, reverse_string junk (some (s ++ 0 :: rest)) = .ok (some r)) := by
  have hlen2 : s.length < 2 ^ 64 - 1 := hlen
  have h1 : size_sub s.length 1 = s.length - 1 := size_sub_of_le (by omega) (by omega)
  have hsub : size_sub (size_sub s.length 1) i = s.length - 1 - i := by
    rw [h1]
    exact size_sub_of_le (by omega) (by omega)
  have hrd : s.length - 1 - i < (s ++ 0 :: rest).length := by
    simp only [List.length_append, List.length_cons]; omega
  refine ⟨by rw [h1]; omega, by rw [hsub]; omega, by rw [hsub]; omega, ?_, by omega,
    by omega, ?_,
    ⟨_, reverse_string_terminated junk s rest hs hlen⟩⟩
  · rw [length_malloc, size_add_of_lt (by omega)]
  · refine ⟨_, by rw [hsub]; exact load_of_lt _ _ hrd, ?_⟩
    intro result hres
    exact ⟨⟨_, store_of_lt result i _ (by omega)⟩, ⟨_, store_of_lt result s.length 0 (by omega)⟩⟩

theorem reverse_string_in_bounds_witness :
    ((size_sub [104, 105, 33].length 1 : Nat) : Int) = ([104, 105, 33].length : Int) - 1 ∧
      ((size_sub (size_sub [104, 105, 33].length 1) 2 : Nat) : Int)
        = ([104, 105, 33].length : Int) - 1 - ((2 : Nat) : Int) ∧
      size_sub (size_sub [104, 105, 33].length 1) 2 < [104, 105, 33].length ∧
      (malloc (fun _ => 7) (size_add [104, 105, 33].length 1)).length
        = [104, 105, 33].length + 1 ∧
      2 < [104, 105, 33].length + 1 ∧ [104, 105, 33].length < [104, 105, 33].length + 1 ∧
      (∃ c, load ([104, 105, 33] ++ 0 :: [9]) (size_sub (size_sub [104, 105, 33].length 1) 2)
          = .ok c ∧
        ∀ result : List Nat, result.length = [104, 105, 33].length + 1 →
          (∃ r, store result 2 c = .ok r) ∧ (∃ r, store result [104, 105, 33].length 0 = .ok r)) ∧
      (∃ r, reverse_string (fun _ => 7) (some ([104, 105, 33] ++ 0 :: [9])) = .ok (some r)) :=
  reverse_string_in_bounds (fun _ => 7) [104, 105, 33] [9] (by decide) (by decide) 2
    (by decide)

/-! ## `compute_pi_monte_carlo`: the counter -/

theorem monte_carlo_state_succ (RAND_MAX : Nat) (rand : Nat → Nat) (pos k : Nat) :
    monte_carlo_state RAND_MAX rand pos (k + 1)
      = monte_carlo_body RAND_MAX rand (monte_carlo_state RAND_MAX rand pos k) := by
  unfold monte_carlo_state
  exact Function.iterate_succ_apply' _ _ _

/-- The invariant of the loop of `compute_pi_monte_carlo`: after `k` iterations,
`k` an `int`, the index is `k`, the counter is between `0` and `k`, and the
generator has moved by `2 * k` draws. -/
theorem monte_carlo_state_invariant (RAND_MAX : Nat) (rand : Nat → Nat) (pos : Nat) :
    ∀ k : Nat, (k : Int) ≤ INT_MAX →
      (monte_carlo_state RAND_MAX rand pos k).i = (k : Int) ∧
      0 ≤ (monte_carlo_state RAND_MAX rand pos k).inside_circle ∧
      (monte_carlo_state RAND_MAX rand pos k).inside_circle ≤ (k : Int) ∧
      (monte_carlo_state RAND_MAX rand pos k).pos = pos + 2 * k := by
  intro k
  induction k with
  | zero =>
    intro _
    exact ⟨rfl, le_refl _, le_refl _, rfl⟩
  | succ k ih =>
    intro hk
    have hk1 : (k : Int) + 1 ≤ INT_MAX := by push_cast at hk; exact hk
    obtain ⟨hi, hlo, hhi, hp⟩ := ih (by omega)
    have hmin : INT_MIN ≤ 0 := by decide
    rw [monte_carlo_state_succ]
    have hwi : wrap_int ((monte_carlo_state RAND_MAX rand pos k).i + 1) = (k : Int) + 1 := by
      rw [hi]
      exact wrap_int_of_range (by omega) hk1
    have hwc : wrap_int ((monte_carlo_state RAND_MAX rand pos k).inside_circle + 1)
        = (monte_carlo_state RAND_MAX rand pos k).inside_circle + 1 :=
      wrap_int_of_range (by omega) (by omega)
    refine ⟨?_, ?_, ?_, ?_⟩
    · simp only [monte_carlo_body, hwi]
      push_cast
      rfl
    · simp only [monte_carlo_body, hwc]
      split <;> omega
    · simp only [monte_carlo_body, hwc]
      push_cast
      split <;> omega
    · simp only [monte_carlo_body, hp]
      ring

/-- The loop of `compute_pi_monte_carlo` on a count `m` that is an `int`,
entered in the state after `a ≤ m` iterations: it returns the counter and the
position of the state after `m` iterations. -/
theorem monte_carlo_loop_state (RAND_MAX : Nat) (rand : Nat → Nat) (pos m : Nat)
    (hm : (m : Int) ≤ INT_MAX) :
    ∀ (fuel a : Nat), a ≤ m → m - a ≤ fuel →
      monte_carlo_loop RAND_MAX rand (m : Int) fuel
          (monte_carlo_state RAND_MAX rand pos a).i
          (monte_carlo_state RAND_MAX rand pos a).inside_circle
          (monte_carlo_state RAND_MAX rand pos a).pos
        = .ok ((monte_carlo_state RAND_MAX rand pos m).inside_circle,
            (monte_carlo_state RAND_MAX rand pos m).pos) := by
  intro fuel
  induction fuel with
  | zero =>
    intro a ha hfuel
    have e : a = m := by omega
    subst e
    have hi := (monte_carlo_state_invariant RAND_MAX rand pos a hm).1
    rw [monte_carlo_loop, hi, if_neg (lt_irrefl _)]
  | succ fuel ih =>
    intro a ha hfuel
    have hi := (monte_carlo_state_invariant RAND_MAX rand pos a (by omega)).1
    by_cases hlt : a < m
    · have hlt2 : (monte_carlo_state RAND_MAX rand pos a).i < (m : Int) := by
        rw [hi]; omega
      have hnext := ih (a + 1) (by omega) (by omega)
      rw [monte_carlo_state_succ] at hnext
      rw [monte_carlo_loop, if_pos hlt2]
      exact hnext
    · have e : a = m := by omega
      subst e
      rw [monte_carlo_loop, hi, if_neg (lt_irrefl _)]

/-- Claim C17. For every count `n ≥ 0` (an `int`) and every stream of draws:
after `k ≤ n` iterations of the loop of `compute_pi_monte_carlo` the counter
`inside_circle` is between `0` and `k`, so it is at most `n` and an `int`, and
its increment does not wrap around; the loop returns the counter of the state
after `n` iterations; and for `n > 0` the call returns an estimate between `0`
and `4`. -/
theorem compute_pi_monte_carlo_counter (RAND_MAX : Nat) (rand : Nat → Nat) (pos n : Nat)
    (hmax : (n : Int) ≤ INT_MAX) :
    (∀ k, k ≤ n →
      0 ≤ (monte_carlo_state RAND_MAX rand pos k).inside_circle ∧
      (monte_carlo_state RAND_MAX rand pos k).inside_circle ≤ (k : Int) ∧
      (monte_carlo_state RAND_MAX rand pos k).inside_circle ≤ (n : Int) ∧
      (monte_carlo_state RAND_MAX rand pos k).inside_circle ≤ INT_MAX) ∧
    (∀ k, k < n →
      wrap_int ((monte_carlo_state RAND_MAX rand pos k).inside_circle + 1)
        = (monte_carlo_state RAND_MAX rand pos k).inside_circle + 1) ∧
    monte_carlo_loop RAND_MAX rand (n : Int) ((n : Int).toNat) 0 0 pos
      = .ok ((monte_carlo_state RAND_MAX rand pos n).inside_circle,
          (monte_carlo_state RAND_MAX rand pos n).pos) ∧
    (0 < n → ∃ q p, compute_pi_monte_carlo RAND_MAX rand pos (n : Int) = .ok (q, p) ∧
      0 ≤ q ∧ q ≤ 4) := by
  have hloop : monte_carlo_loop RAND_MAX rand (n : Int) ((n : Int).toNat) 0 0 pos
      = .ok ((monte_carlo_state RAND_MAX rand pos n).inside_circle,
          (monte_carlo_state RAND_MAX rand pos n).pos) := by
    have h := monte_carlo_loop_state RAND_MAX rand pos n hmax n 0 (Nat.zero_le _) (by omega)
    rw [Int.toNat_ofNat]
    exact h
  have hmin : INT_MIN ≤ 0 := by decide
  refine ⟨?_, ?_, hloop, ?_⟩
  · intro k hk
    obtain ⟨_, hlo, hhi, _⟩ := monte_carlo_state_invariant RAND_MAX rand pos k (by omega)
    exact ⟨hlo, hhi, by omega, by omega⟩
  · intro k hk
    obtain ⟨_, hlo, hhi, _⟩ := monte_carlo_state_invariant RAND_MAX rand pos k (by omega)
    exact wrap_int_of_range (by omega) (by omega)
  · intro hpos
    obtain ⟨_, hlo, hhi, _⟩ := monte_carlo_state_invariant RAND_MAX rand pos n hmax
    have hne : ¬ ((n : Int) = 0) := by omega
    have hn : (0 : ℚ) < (n : ℚ) := by exact_mod_cast hpos
    have hlo2 : (0 : ℚ) ≤ ((monte_carlo_state RAND_MAX rand pos n).inside_circle : ℚ) := by
      exact_mod_cast hlo
    have hhi2 : ((monte_carlo_state RAND_MAX rand pos n).inside_circle : ℚ) ≤ (n : ℚ) := by
      exact_mod_cast hhi
    refine ⟨4 * ((monte_carlo_state RAND_MAX rand pos n).inside_circle : ℚ) / (n : ℚ),
      (monte_carlo_state RAND_MAX rand pos n).pos, ?_, ?_, ?_⟩
    · simp only [compute_pi_monte_carlo, hloop, ok_bind, if_neg hne]
      simp
      rfl
    · exact div_nonneg (by linarith) (le_of_lt hn)
    · rw [div_le_iff₀ hn]
      linarith

theorem compute_pi_monte_carlo_counter_witness :
    (∀ k, k ≤ 3 →
      0 ≤ (monte_carlo_state 4 (fun k => k + 2) 0 k).inside_circle ∧
      (monte_carlo_state 4 (fun k => k + 2) 0 k).inside_circle ≤ (k : Int) ∧
      (monte_carlo_state 4 (fun k => k + 2) 0 k).inside_circle ≤ ((3 : Nat) : Int) ∧
      (monte_carlo_state 4 (fun k => k + 2) 0 k).inside_circle ≤ INT_MAX) ∧
    (∀ k, k < 3 →
      wrap_int ((monte_carlo_state 4 (fun k => k + 2) 0 k).inside_circle + 1)
        = (monte_carlo_state 4 (fun k => k + 2) 0 k).inside_circle + 1) ∧
    monte_carlo_loop 4 (fun k => k + 2) ((3 : Nat) : Int) (((3 : Nat) : Int).toNat) 0 0 0
      = .ok ((monte_carlo_state 4 (fun k => k + 2) 0 3).inside_circle,
          (monte_carlo_state 4 (fun k => k + 2) 0 3).pos) ∧
    (0 < 3 → ∃ q p, compute_pi_monte_carlo 4 (fun k => k + 2) 0 ((3 : Nat) : Int) = .ok (q, p) ∧
      0 ≤ q ∧ q ≤ 4) :=
  compute_pi_monte_carlo_counter 4 (fun k => k + 2) 0 3 (by decide)

/-! ## `create_point`: the width of the radicand -/

/-- The result of `wrap_int` is an `int`. -/
theorem wrap_int_range (z : Int) : INT_MIN ≤ wrap_int z ∧ wrap_int z ≤ INT_MAX := by
  unfold INT_MIN INT_MAX wrap_int
  omega

/-- The radicand of `create_point` is the sum of the squares when that sum is
an `int`. -/
theorem create_point_radicand_of_fit (x y : Int) (hfit : x ^ 2 + y ^ 2 ≤ INT_MAX) :
    create_point_radicand x y = x ^ 2 + y ^ 2 := by
  have hx : 0 ≤ x * x := mul_self_nonneg x
  have hy : 0 ≤ y * y := mul_self_nonneg y
  have e : x * x + y * y = x ^ 2 + y ^ 2 := by ring
  have hsum : x * x + y * y ≤ INT_MAX := by rw [e]; exact hfit
  have h0 : INT_MIN ≤ 0 := by decide
  unfold create_point_radicand
  rw [wrap_int_of_range (le_trans h0 hx) (by linarith),
    wrap_int_of_range (le_trans h0 hy) (by linarith),
    wrap_int_of_range (le_trans h0 (by linarith)) hsum]
  exact e

/-- Claim C18. In `create_point` the square root is applied to the radicand
`x * x + y * y` computed on `int`, a value between `-2^31` and `2^31 - 1`.  It is
`x^2 + y^2` whenever `x^2 + y^2 ≤ 2^31 - 1`, and so whenever `|x| ≤ 32767` and
`|y| ≤ 32767`; and for the `int` values `x = 46341`, `y = 0` it is not
`x^2 + y^2`. -/
theorem create_point_radicand_width {δ : Type} (sqrt : Int → δ) (x y : Int) :
    (create_point sqrt x y).distance = sqrt (create_point_radicand x y) ∧
    (INT_MIN ≤ create_point_radicand x y ∧ create_point_radicand x y ≤ INT_MAX) ∧
    (x ^ 2 + y ^ 2 ≤ 2 ^ 31 - 1 → create_point_radicand x y = x ^ 2 + y ^ 2) ∧
    (|x| ≤ 32767 → |y| ≤ 32767 → create_point_radicand x y = x ^ 2 + y ^ 2) ∧
    (INT_MIN ≤ 46341 ∧ (46341 : Int) ≤ INT_MAX ∧
      create_point_radicand 46341 0 ≠ 46341 ^ 2 + 0 ^ 2) := by
  refine ⟨rfl, wrap_int_range _, fun h => create_point_radicand_of_fit x y h, ?_,
    by decide, by decide, by decide⟩
  intro hx hy
  obtain ⟨hx1, hx2⟩ := abs_le.mp hx
  obtain ⟨hy1, hy2⟩ := abs_le.mp hy
  apply create_point_radicand_of_fit
  unfold INT_MAX
  nlinarith

theorem create_point_radicand_width_witness :
    ((-32767 : Int) ^ 2 + 32767 ^ 2 ≤ 2 ^ 31 - 1 ∧ |(-32767 : Int)| ≤ 32767 ∧
      |(32767 : Int)| ≤ 32767) ∧
    create_point_radicand (-32767) 32767 = (-32767) ^ 2 + 32767 ^ 2 ∧
    create_point_radicand (-32767) 32767 = 2147352578 :=
  ⟨⟨by decide, by decide, by decide⟩,
    (create_point_radicand_width Int.sqrt (-32767) 32767).2.2.2.1 (by decide) (by decide),
    ((create_point_radicand_width Int.sqrt (-32767) 32767).2.2.1 (by decide)).trans
      (by decide)⟩

/-! ## `process_array`: the width of the elements -/

/-- Claim C19. For every array `A` and every length `n ≤ |A|`, `process_array`
returns, and after it the element at every index `i < n`, of value `v` before
the call, is `2 * v` reduced to its low 32 bits.  When `-2^30 ≤ v ≤ 2^30 - 1`
that is `2 * v` exactly; for any other `v` it is not `2 * v`. -/
theorem process_array_width (A : List Int) (n : Nat) (hle : n ≤ A.length)
    (hlen : n ≤ SIZE_MAX) :
    ∃ A1, process_array A n = .ok A1 ∧
      ∀ i v, i < n → A[i]? = some v →
        A1[i]? = some (wrap_int (v * 2)) ∧
        wrap_int (v * 2) % 2 ^ 32 = (2 * v) % 2 ^ 32 ∧
        (-(2 ^ 30) ≤ v ∧ v ≤ 2 ^ 30 - 1 → A1[i]? = some (2 * v)) ∧
        (¬ (-(2 ^ 30) ≤ v ∧ v ≤ 2 ^ 30 - 1) → A1[i]? ≠ some (2 * v)) := by
  refine ⟨_, process_array_eq A n hle hlen, ?_⟩
  intro i v hi hv
  have hget : ((A.take n).map (fun v => wrap_int (v * 2)) ++ A.drop n)[i]?
      = some (wrap_int (v * 2)) := by
    rw [List.getElem?_append_left (by simp; omega)]
    simp [List.getElem?_take, hi, hv]
  refine ⟨hget, ?_, ?_, ?_⟩
  · unfold wrap_int
    omega
  · intro hr
    rw [hget]
    congr 1
    unfold wrap_int
    omega
  · intro hr h
    rw [hget] at h
    injection h with h
    unfold wrap_int at h
    omega

theorem process_array_width_witness :
    ∃ A1, process_array [3, 1073741824, -1073741825, 7] 3 = .ok A1 ∧
      ∀ i v, i < 3 → ([3, 1073741824, -1073741825, 7] : List Int)[i]? = some v →
        A1[i]? = some (wrap_int (v * 2)) ∧
        wrap_int (v * 2) % 2 ^ 32 = (2 * v) % 2 ^ 32 ∧
        (-(2 ^ 30) ≤ v ∧ v ≤ 2 ^ 30 - 1 → A1[i]? = some (2 * v)) ∧
        (¬ (-(2 ^ 30) ≤ v ∧ v ≤ 2 ^ 30 - 1) → A1[i]? ≠ some (2 * v)) :=
  process_array_width [3, 1073741824, -1073741825, 7] 3 (by decide) (by decide)

/-! ## Concrete runs of the model -/

theorem reverse_string_run :
    reverse_string (fun _ => 7) (some [104, 105, 33, 0, 9, 9]) = .ok (some [33, 105, 104, 0]) :=
  rfl

theorem reverse_string_unterminated_run :
    reverse_string (fun _ => 7) (some [104, 105, 33]) = .error .outOfBounds :=
  rfl

theorem process_array_run :
    process_array [1, -2, 3, 1073741824, 5] 4 = .ok [2, -4, 6, -2147483648, 5] :=
  rfl

theorem process_array_overrun_run :
    process_array [1, -2, 3] 4 = .error .outOfBounds :=
  rfl

theorem process_with_callback_run :
    process_with_callback [1, 2, 3] 2 (fun v (log : List Int) => log ++ [v]) []
      = .ok ([1, 2, 3], [1, 2]) :=
  rfl

theorem compute_pi_monte_carlo_run :
    compute_pi_monte_carlo 4 (fun k => k + 2) 0 3 = .ok (4 / 3, 6) := by
  simp [compute_pi_monte_carlo, monte_carlo_loop, coordinate, wrap_int]
  norm_num

theorem size_sub_wraps_run : size_sub 0 1 = SIZE_MAX := by decide

theorem compute_pi_monte_carlo_zero_run :
    compute_pi_monte_carlo 32767 (fun k => k) 7 0 = .error .divByZero :=
  rfl

theorem free_string_run :
    free_string [(4, [1, 0]), (2, [0])] (some 4) = .ok [(2, [0])] :=
  rfl

theorem free_string_twice_run :
    free_string [(2, [0])] (some 4) = .error .invalidFree :=
  rfl

theorem reverse_string_alloc_run :
    reverse_string_alloc [(4, [1, 0]), (2, [0])] (fun _ => 7) (some [104, 105, 0])
      = .ok (some 5, [(5, [105, 104, 0]), (4, [1, 0]), (2, [0])]) :=
  rfl

set_option maxRecDepth 100000 in
theorem binary64_third_run :
    F64.div (F64.ofInt 1) (F64.ofInt 3) = .finite false 6004799503160661 (-54) := by
  decide

set_option maxRecDepth 100000 in
theorem binary64_sum_run :
    F64.add (F64.div (F64.ofInt 1) (F64.ofInt 10)) (F64.div (F64.ofInt 2) (F64.ofInt 10))
      = .finite false 5404319552844596 (-54) := by
  decide

set_option maxRecDepth 100000 in
theorem binary64_zero_quotient_run :
    F64.div (F64.mul (F64.ofInt 4) (F64.ofInt 0)) (F64.ofInt 0) = .nan := by
  decide

set_option maxRecDepth 100000 in
theorem binary64_inside_run :
    inside_fp binary64 2147483647 2147483647 1 = true ∧
    inside_fp binary64 2147483647 65536 2147483646 = true ∧
    inside_fp binary64 2147483647 72219823 2146268928 = false := by
  decide

end Native
